import Mathlib

/-!
Verification of the rocksdb-eval inverted-index prototype.

This file gives a shallow embedding of the two Rust source files of the
repository (src/lib.rs, the library used by the column-family based index,
and src/main.rs, the earlier single-column prototype) and proves or refutes
the frozen claims about them.

Conventions of the embedding:
* `u64` values (dataset ids, hashes, colors) are `Nat`; where a claim
  depends on the 64-bit bound, the bound appears as an explicit hypothesis
  or an explicit `% 2 ^ 64` style side condition.
* `BTreeSet<DatasetID>` (lib.rs) is a `Finset Nat`: both are canonical
  representations of a finite set, and both iterate in ascending order
  (`Finset.sort (· ≤ ·)` below).
* `HashSet<DatasetID>` (main.rs) is a `List Nat` holding the set's
  iteration order: a std `HashSet` is a set together with an unspecified,
  process-dependent iteration order, which the list makes explicit.
* rocksdb and file I/O are modelled by explicit state passing; fallible
  operations return `Option` or `Except`.
-/

/-! ## src/lib.rs — `Datasets` (enum Empty / Unique / Many(BTreeSet)) -/

/-- The `Datasets` enum of src/lib.rs: `Empty`, `Unique(DatasetID)`, or
`Many(BTreeSet<DatasetID>)`.  The `BTreeSet` is modelled as a `Finset Nat`. -/
inductive Datasets where
  | Empty : Datasets
  | Unique (v : Nat) : Datasets
  | Many (s : Finset Nat) : Datasets
deriving DecidableEq

/-- `Datasets::new(vals)` from src/lib.rs lines 219-227: branches on the
*length* of the input slice (`vals.len()`), not on the number of distinct
members; a slice of length `≥ 2` always becomes `Many`. -/
def Datasets.new (vals : List Nat) : Datasets :=
  if vals.length = 0 then .Empty
  else if vals.length = 1 then .Unique vals.headI
  else .Many vals.toFinset

/-- `Datasets::contains(&value)` from src/lib.rs lines 283-289. -/
def Datasets.contains : Datasets → Nat → Bool
  | .Empty, _ => false
  | .Unique v, x => v = x
  | .Many s, x => x ∈ s

/-- `Datasets::len()` from src/lib.rs lines 275-281. -/
def Datasets.len : Datasets → Nat
  | .Empty => 0
  | .Unique _ => 1
  | .Many s => s.card

/-- The members of a `Datasets` value as a finite set (the semantics of the
value; `IntoIterator` for `Datasets` yields exactly these elements). -/
def Datasets.toFinset : Datasets → Finset Nat
  | .Empty => ∅
  | .Unique v => {v}
  | .Many s => s

/-- One step of `impl Extend<DatasetID> for Datasets` (src/lib.rs lines
197-216): the body of the `for value in iter` loop. -/
def Datasets.extendOne : Datasets → Nat → Datasets
  | .Empty, value => .Unique value
  | .Unique v, value => if v = value then .Unique v else .Many {v, value}
  | .Many s, value => .Many (insert value s)

/-- `Datasets::extend(iter)` from src/lib.rs lines 197-216: folds
`extendOne` over the iterator. -/
def Datasets.extend (d : Datasets) (iter : List Nat) : Datasets :=
  iter.foldl Datasets.extendOne d

/-- `Datasets::union(other)` from src/lib.rs lines 252-273 (`self` is the
first argument and receives the result). -/
def Datasets.union : Datasets → Datasets → Datasets
  | .Empty, other => other
  | .Unique v, .Empty => .Unique v
  | .Unique v, .Unique o => if v = o then .Unique v else .Many {v, o}
  | .Unique v, .Many o => .Many (insert v o)
  | .Many s, other => .Many (s ∪ other.toFinset)

/-- The spec's representation invariant for `Datasets`: the `Many` variant
holds at least two distinct members (a set of size 1 is never `Many`). -/
def Datasets.wf : Datasets → Bool
  | .Many s => 2 ≤ s.card
  | _ => true

/-- Height of the variant in the promotion order `Empty → Unique → Many`. -/
def Datasets.rank : Datasets → Nat
  | .Empty => 0
  | .Unique _ => 1
  | .Many _ => 2

theorem Datasets.contains_eq_mem (d : Datasets) (x : Nat) :
    d.contains x = decide (x ∈ d.toFinset) := by
  cases d <;> simp [Datasets.contains, Datasets.toFinset, eq_comm]

theorem Datasets.union_toFinset (a b : Datasets) :
    (a.union b).toFinset = a.toFinset ∪ b.toFinset := by
  cases a with
  | Empty => cases b <;> simp [Datasets.union, Datasets.toFinset]
  | Unique v =>
    cases b with
    | Empty => simp [Datasets.union, Datasets.toFinset]
    | Unique o =>
      by_cases h : v = o <;>
        simp [Datasets.union, Datasets.toFinset, h, Finset.insert_eq]
    | Many o => simp [Datasets.union, Datasets.toFinset, Finset.insert_eq]
  | Many s => cases b <;> simp [Datasets.union, Datasets.toFinset]

/-- C6.  For all `Datasets` values `a`, `b` and every id `x`:
`a.union(b)` contains `x` iff `a` contains `x` or `b` contains `x`; and the
variant of the union never ranks below the variant of either argument
(`Empty → Unique → Many` promotion is upward only). -/
theorem c6_union_contains_iff : ∀ (a b : Datasets) (x : Nat),
    (a.union b).contains x = (a.contains x || b.contains x)
    ∧ a.rank ≤ (a.union b).rank ∧ b.rank ≤ (a.union b).rank := by
  intro a b x
  refine ⟨?_, ?_, ?_⟩
  · rw [Datasets.contains_eq_mem, Datasets.contains_eq_mem,
      Datasets.contains_eq_mem, Datasets.union_toFinset]
    simp
  · cases a with
    | Empty => simp [Datasets.rank]
    | Unique v =>
      cases b with
      | Empty => simp [Datasets.union, Datasets.rank]
      | Unique o =>
        by_cases h : v = o <;> simp [Datasets.union, Datasets.rank, h]
      | Many o => simp [Datasets.union, Datasets.rank]
    | Many s => simp [Datasets.union, Datasets.rank]
  · cases a with
    | Empty => simp [Datasets.union, Datasets.rank]
    | Unique v =>
      cases b with
      | Empty => simp [Datasets.union, Datasets.rank]
      | Unique o =>
        by_cases h : v = o <;> simp [Datasets.union, Datasets.rank, h]
      | Many o => simp [Datasets.union, Datasets.rank]
    | Many s => cases b <;> simp [Datasets.union, Datasets.rank]

theorem Datasets.wf_extendOne (d : Datasets) (v : Nat) (h : d.wf = true) :
    (d.extendOne v).wf = true := by
  cases d with
  | Empty => simp [Datasets.extendOne, Datasets.wf]
  | Unique w =>
    by_cases hw : w = v
    · simp [Datasets.extendOne, Datasets.wf, hw]
    · simp only [Datasets.extendOne, if_neg hw, Datasets.wf, decide_eq_true_eq]
      rw [Finset.card_insert_of_not_mem (by simp [hw]), Finset.card_singleton]
  | Many s =>
    simp only [Datasets.extendOne, Datasets.wf, decide_eq_true_eq] at h ⊢
    exact Nat.le_trans h (Finset.card_le_card (Finset.subset_insert v s))

theorem Datasets.wf_extend (d : Datasets) (l : List Nat) (h : d.wf = true) :
    (d.extend l).wf = true := by
  induction l generalizing d with
  | nil => exact h
  | cons x xs ih => exact ih _ (Datasets.wf_extendOne d x h)

theorem Datasets.wf_union (a b : Datasets) (ha : a.wf = true) (hb : b.wf = true) :
    (a.union b).wf = true := by
  cases a with
  | Empty => exact hb
  | Unique v =>
    cases b with
    | Empty => simp [Datasets.union, Datasets.wf]
    | Unique o =>
      by_cases h : v = o
      · simp [Datasets.union, Datasets.wf, h]
      · simp only [Datasets.union, if_neg h, Datasets.wf, decide_eq_true_eq]
        rw [Finset.card_insert_of_not_mem (by simp [h]), Finset.card_singleton]
    | Many o =>
      simp only [Datasets.union, Datasets.wf, decide_eq_true_eq] at hb ⊢
      exact Nat.le_trans hb (Finset.card_le_card (Finset.subset_insert v o))
  | Many s =>
    simp only [Datasets.union, Datasets.wf, decide_eq_true_eq] at ha ⊢
    exact Nat.le_trans ha (Finset.card_le_card Finset.subset_union_left)

/-- C5, counterexample.  `Datasets::new` branches on the length of its
input slice, so the two-element slice `[5, 5]`, which has exactly one
distinct member, is stored as `Many({5})`: a set of size 1 represented as
`Many`, violating both the minimal-variant description of `new` and the
claimed invariant. -/
theorem c5_new_duplicates_counterexample :
    Datasets.new [5, 5] = Datasets.Many {5}
    ∧ Datasets.wf (Datasets.new [5, 5]) = false
    ∧ (Datasets.new [5, 5]).len = 1 := by
  decide

/-- C5, amended.  `Datasets::new` is minimal-variant for duplicate-free
input slices (empty slice → `Empty`, singleton slice → `Unique`, longer
slices → `Many` of at least two distinct members), and `extend` and `union`
preserve the invariant that `Many` holds at least two distinct members; a
slice of length ≥ 2 whose members are all equal, however, is represented as
`Many` of a singleton set. -/
theorem c5_new_minimal_variant_amended :
    (∀ vals : List Nat, vals.Nodup →
      Datasets.wf (Datasets.new vals) = true
      ∧ (vals = [] → Datasets.new vals = Datasets.Empty)
      ∧ (∀ x, vals = [x] → Datasets.new vals = Datasets.Unique x)
      ∧ (2 ≤ vals.length → Datasets.new vals = Datasets.Many vals.toFinset
          ∧ 2 ≤ vals.toFinset.card))
    ∧ (∀ (d : Datasets) (l : List Nat), d.wf = true → (d.extend l).wf = true)
    ∧ (∀ a b : Datasets, a.wf = true → b.wf = true → (a.union b).wf = true) := by
  refine ⟨?_, Datasets.wf_extend, Datasets.wf_union⟩
  intro vals hnd
  have hcard : vals.toFinset.card = vals.length := by
    rw [List.toFinset_card_of_nodup hnd]
  refine ⟨?_, ?_, ?_, ?_⟩
  · rcases vals with _ | ⟨x, vals⟩
    · decide
    rcases vals with _ | ⟨y, rest⟩
    · simp [Datasets.new, Datasets.wf]
    · have h0 : ¬ (x :: y :: rest).length = 0 := by simp
      have h1 : ¬ (x :: y :: rest).length = 1 := by
        simp only [List.length_cons]; omega
      simp only [Datasets.new, if_neg h0, if_neg h1, Datasets.wf, decide_eq_true_eq]
      rw [hcard]
      simp only [List.length_cons]
      omega
  · rintro rfl; decide
  · rintro x rfl; simp [Datasets.new]
  · intro hlen
    have h0 : ¬ vals.length = 0 := by omega
    have h1 : ¬ vals.length = 1 := by omega
    exact ⟨by simp [Datasets.new, h0, h1], by rw [hcard]; exact hlen⟩

/-- C5, witness for the amended theorem at concrete inputs: the duplicate
free slice `[3, 9]` is stored as a well-formed `Many`, and `union` of two
`Unique`s preserves the invariant. -/
theorem c5_new_minimal_variant_amended_witness :
    Datasets.wf (Datasets.new [3, 9]) = true
    ∧ Datasets.wf ((Datasets.Unique 1).union (Datasets.Unique 2)) = true :=
  ⟨(c5_new_minimal_variant_amended.1 [3, 9] (by decide)).1,
    c5_new_minimal_variant_amended.2.2 _ _ (by decide) (by decide)⟩

/-! ## Serialization (`from_slice` / `as_bytes`)

The Rust code serializes with the external `rkyv` crate
(`rkyv::to_bytes` / `archived_root` + deserialize, src/lib.rs lines
229-250 and src/main.rs lines 236-258).  The crate's contract — relied on
by the repository — is that archiving is a stable injective encoding that
writes a collection's elements in its iteration order and that
deserialization inverts it.  The encoding is modelled explicitly below:
a variant tag byte, then fixed-width 8-byte little-endian integers, with
`Many`'s `BTreeSet` written in its (ascending) iteration order and a
preceding element count.  Bytes are `Nat`s below 256. -/

/-- Little-endian byte encoding of `v` in `w` bytes (least significant
byte first), as `WriteBytesExt::write_u64::<LittleEndian>` lays out a
`u64` when `w = 8`. -/
def toLE : Nat → Nat → List Nat
  | 0, _ => []
  | w + 1, v => v % 256 :: toLE w (v / 256)

/-- Little-endian byte decoding, inverse of `toLE`. -/
def fromLE : List Nat → Nat
  | [] => 0
  | b :: bs => b + 256 * fromLE bs

theorem toLE_length (w v : Nat) : (toLE w v).length = w := by
  induction w generalizing v with
  | zero => rfl
  | succ w ih => simp [toLE, ih]

theorem fromLE_toLE (w v : Nat) (h : v < 256 ^ w) : fromLE (toLE w v) = v := by
  induction w generalizing v with
  | zero => simp [toLE, fromLE]; omega
  | succ w ih =>
    have hdiv : v / 256 < 256 ^ w := by
      rw [Nat.div_lt_iff_lt_mul (by norm_num)]
      calc v < 256 ^ (w + 1) := h
        _ = 256 ^ w * 256 := by ring
    simp only [toLE, fromLE, ih _ hdiv]
    omega

/-- Read `n` consecutive 8-byte little-endian integers, requiring the
input to be consumed exactly. -/
def readInts : Nat → List Nat → Option (List Nat)
  | 0, [] => some []
  | 0, _ :: _ => none
  | n + 1, bs =>
    if 8 ≤ bs.length then
      match readInts n (bs.drop 8) with
      | some vs => some (fromLE (bs.take 8) :: vs)
      | none => none
    else none

theorem readInts_flatMap (l : List Nat) (h : ∀ x ∈ l, x < 2 ^ 64) :
    readInts l.length (l.flatMap (toLE 8)) = some l := by
  induction l with
  | nil => rfl
  | cons x xs ih =>
    have hx : x < 2 ^ 64 := h x (List.mem_cons_self x xs)
    have hlen : (toLE 8 x).length = 8 := toLE_length 8 x
    have htake : ((toLE 8 x) ++ xs.flatMap (toLE 8)).take 8 = toLE 8 x := by
      rw [← hlen]; exact List.take_left _ _
    have hdrop : ((toLE 8 x) ++ xs.flatMap (toLE 8)).drop 8 = xs.flatMap (toLE 8) := by
      rw [← hlen]; exact List.drop_left _ _
    have hge : 8 ≤ ((toLE 8 x) ++ xs.flatMap (toLE 8)).length := by
      rw [List.length_append, hlen]; omega
    simp only [List.flatMap_cons, List.length_cons, readInts, if_pos hge, hdrop,
      ih (fun y hy => h y (List.mem_cons_of_mem x hy)), htake]
    rw [fromLE_toLE 8 x (by norm_num at hx ⊢; exact hx)]

/-- `Datasets::as_bytes` (src/lib.rs lines 238-250): the modelled byte
encoding of the enum: a tag byte (0 = `Empty`, 1 = `Unique`, 2 = `Many`),
then the payload; `Many` writes its element count and then its
`BTreeSet`'s elements in iteration (ascending) order, 8 bytes each. -/
def Datasets.as_bytes : Datasets → List Nat
  | .Empty => [0]
  | .Unique v => 1 :: toLE 8 v
  | .Many s => 2 :: (toLE 8 s.card ++ (s.sort (· ≤ ·)).flatMap (toLE 8))

/-- `Datasets::from_slice` (src/lib.rs lines 229-236): decodes the
modelled byte encoding back into a `Datasets` value. -/
def Datasets.from_slice (bs : List Nat) : Option Datasets :=
  match bs with
  | [0] => some .Empty
  | 1 :: rest => if rest.length = 8 then some (.Unique (fromLE rest)) else none
  | 2 :: rest =>
    if 8 ≤ rest.length then
      match readInts (fromLE (rest.take 8)) (rest.drop 8) with
      | some vs => some (.Many vs.toFinset)
      | none => none
    else none
  | _ => none

/-- All integers stored in the value fit in a `u64`, as they do in the
Rust types. -/
def Datasets.bounded : Datasets → Bool
  | .Empty => true
  | .Unique v => v < 2 ^ 64
  | .Many s => decide (∀ x ∈ s, x < 2 ^ 64) && decide (s.card < 2 ^ 64)

/-- The `Datasets` struct of src/main.rs line 229: a newtype around
`HashSet<DatasetID>`.  The list is the set's iteration order, which for a
std `HashSet` is process-dependent. -/
structure MainDatasets where
  elems : List Nat
deriving DecidableEq

/-- `Datasets::as_bytes` of src/main.rs (lines 245-257): the modelled
encoding of the struct, its element count followed by the `HashSet`'s
elements in iteration order, 8 bytes each. -/
def MainDatasets.as_bytes (d : MainDatasets) : List Nat :=
  toLE 8 d.elems.length ++ d.elems.flatMap (toLE 8)

/-- `Datasets::from_slice` of src/main.rs (lines 236-243). -/
def MainDatasets.from_slice (bs : List Nat) : Option MainDatasets :=
  if 8 ≤ bs.length then
    match readInts (fromLE (bs.take 8)) (bs.drop 8) with
    | some vs => some ⟨vs⟩
    | none => none
  else none

/-- All integers stored in the value fit in a `u64`. -/
def MainDatasets.bounded (d : MainDatasets) : Bool :=
  d.elems.all (fun x => x < 2 ^ 64) && decide (d.elems.length < 2 ^ 64)

theorem readInts_prefix (l : List Nat) (h : ∀ x ∈ l, x < 2 ^ 64)
    (n : Nat) (hn : n = l.length) :
    readInts n (l.flatMap (toLE 8)) = some l := by
  subst hn; exact readInts_flatMap l h

/-- C7.  Byte round-trip: for every `Datasets` value whose integers fit in
a `u64`, deserializing the serialized bytes returns the value itself —
both for the lib.rs enum (`Empty`/`Unique`/`Many`) and for the main.rs
`HashSet` newtype (where the recovered iteration order, and hence the set,
is unchanged). -/
theorem c7_serialize_roundtrip :
    (∀ d : Datasets, d.bounded = true → Datasets.from_slice d.as_bytes = some d)
    ∧ (∀ m : MainDatasets, m.bounded = true →
        MainDatasets.from_slice m.as_bytes = some m) := by
  constructor
  · intro d hb
    cases d with
    | Empty => rfl
    | Unique v =>
      simp only [Datasets.as_bytes, Datasets.from_slice, toLE_length, if_pos rfl]
      rw [fromLE_toLE 8 v (by simpa [Datasets.bounded] using hb)]
      simp
    | Many s =>
      simp only [Datasets.bounded, Bool.and_eq_true, decide_eq_true_eq] at hb
      obtain ⟨hmem, hcard⟩ := hb
      have hlen : (toLE 8 s.card).length = 8 := toLE_length 8 s.card
      have htake : ((toLE 8 s.card) ++ (s.sort (· ≤ ·)).flatMap (toLE 8)).take 8
          = toLE 8 s.card := by
        rw [← hlen]; exact List.take_left _ _
      have hdrop : ((toLE 8 s.card) ++ (s.sort (· ≤ ·)).flatMap (toLE 8)).drop 8
          = (s.sort (· ≤ ·)).flatMap (toLE 8) := by
        rw [← hlen]; exact List.drop_left _ _
      have hge : 8 ≤ ((toLE 8 s.card) ++ (s.sort (· ≤ ·)).flatMap (toLE 8)).length := by
        rw [List.length_append, hlen]; omega
      have hread : readInts (fromLE ((toLE 8 s.card ++
            (s.sort (· ≤ ·)).flatMap (toLE 8)).take 8))
            ((toLE 8 s.card ++ (s.sort (· ≤ ·)).flatMap (toLE 8)).drop 8)
          = some (s.sort (· ≤ ·)) := by
        rw [htake, hdrop, fromLE_toLE 8 s.card (by norm_num at hcard ⊢; exact hcard)]
        exact readInts_prefix _ (fun x hx => hmem x (Finset.mem_sort _ |>.mp hx))
          _ (Finset.length_sort _).symm
      simp only [Datasets.as_bytes]
      simp only [Datasets.from_slice]
      rw [if_pos hge, hread]
      simp [Finset.sort_toFinset]
  · intro m hb
    simp only [MainDatasets.bounded, Bool.and_eq_true, List.all_eq_true,
      decide_eq_true_eq] at hb
    obtain ⟨hmem, hcard⟩ := hb
    have hlen : (toLE 8 m.elems.length).length = 8 := toLE_length 8 m.elems.length
    have htake : ((toLE 8 m.elems.length) ++ m.elems.flatMap (toLE 8)).take 8
        = toLE 8 m.elems.length := by
      rw [← hlen]; exact List.take_left _ _
    have hdrop : ((toLE 8 m.elems.length) ++ m.elems.flatMap (toLE 8)).drop 8
        = m.elems.flatMap (toLE 8) := by
      rw [← hlen]; exact List.drop_left _ _
    have hge : 8 ≤ ((toLE 8 m.elems.length) ++ m.elems.flatMap (toLE 8)).length := by
      rw [List.length_append, hlen]; omega
    have hread : readInts (fromLE ((toLE 8 m.elems.length ++
          m.elems.flatMap (toLE 8)).take 8))
          ((toLE 8 m.elems.length ++ m.elems.flatMap (toLE 8)).drop 8)
        = some m.elems := by
      rw [htake, hdrop, fromLE_toLE 8 m.elems.length (by norm_num at hcard ⊢; exact hcard)]
      exact readInts_prefix _ (fun x hx => hmem x hx) _ rfl
    simp only [MainDatasets.as_bytes]
    simp only [MainDatasets.from_slice]
    rw [if_pos hge, hread]

/-- C7, witness: the round-trip theorem applied at the concrete values
`Many({1, 2})` (lib.rs enum) and the iteration order `[2, 1]` (main.rs
struct). -/
theorem c7_serialize_roundtrip_witness :
    Datasets.from_slice (Datasets.Many {1, 2}).as_bytes = some (Datasets.Many {1, 2})
    ∧ MainDatasets.from_slice (MainDatasets.mk [2, 1]).as_bytes
        = some (MainDatasets.mk [2, 1]) :=
  ⟨c7_serialize_roundtrip.1 _ (by decide),
    c7_serialize_roundtrip.2 _ (by decide)⟩

/-! ## Search thresholds and the match filter

Counters are represented by their `most_common()` output: a list of
`(dataset_id, count)` pairs. -/

/-- The threshold of `search` in src/lib.rs line 310:
`threshold_bp / query.scaled()` in integer division. -/
def lib_search_threshold (threshold_bp scaled : Nat) : Nat :=
  threshold_bp / scaled

/-- The filter stage of `search` in src/lib.rs lines 325-338: the counter
entries forwarded to the signature lookup are exactly those whose count
reaches the threshold. -/
def lib_search_kept (counter : List (Nat × Nat)) (threshold : Nat) :
    List (Nat × Nat) :=
  counter.filter (fun p => threshold ≤ p.2)

/-- The threshold of `search` in src/main.rs lines 347-360: starting from
`usize::MAX`, each sketch of the query file selected by the template
contributes `threshold_bp / (max(size, 1) * scaled)` and the minimum is
kept.  Each list entry is a selected sketch's `(size, scaled)`. -/
def main_search_threshold (threshold_bp : Nat) (sketches : List (Nat × Nat)) : Nat :=
  sketches.foldl (fun t p => min t (threshold_bp / (max p.1 1 * p.2))) (2 ^ 64 - 1)

/-- The match loop of `search` in src/main.rs lines 377-384: walk
`most_common()` in order, keep entries whose count reaches the threshold,
stop at the first that does not. -/
def main_search_matches (threshold : Nat) (counter : List (Nat × Nat)) : List Nat :=
  (counter.takeWhile (fun p => threshold ≤ p.2)).map Prod.fst

/-- C1, counterexample.  With `threshold_bp = 50000` and `scaled = 1000`,
a query sketch of 5 hashes gives main.rs's `search` the threshold
`50000 / (5 * 1000) = 10`, so dataset 7 with count 10 is reported even
though `10 < threshold_bp / scaled = 50`: the threshold is not obtained by
dividing `threshold_bp` by the scaled value alone. -/
theorem c1_threshold_counterexample :
    main_search_matches (main_search_threshold 50000 [(5, 1000)]) [(7, 10)] = [7]
    ∧ ¬ lib_search_threshold 50000 1000 ≤ 10 := by
  decide

/-- C1, amended.  The two `search` implementations use different
thresholds: src/lib.rs keeps a counter entry iff its count is at least
`threshold_bp / scaled` (scaled value alone), while src/main.rs divides
`threshold_bp` by `max(sketch_size, 1) * scaled`, minimised over the
selected query sketches starting from `usize::MAX`, and every reported
match meets that threshold. -/
theorem c1_search_threshold_amended :
    (∀ (counter : List (Nat × Nat)) (threshold_bp scaled : Nat) (p : Nat × Nat),
      p ∈ lib_search_kept counter (lib_search_threshold threshold_bp scaled)
        ↔ p ∈ counter ∧ threshold_bp / scaled ≤ p.2)
    ∧ (∀ threshold_bp size scaled,
        main_search_threshold threshold_bp [(size, scaled)]
          = min (2 ^ 64 - 1) (threshold_bp / (max size 1 * scaled)))
    ∧ (∀ (threshold : Nat) (counter : List (Nat × Nat)) (id : Nat),
        id ∈ main_search_matches threshold counter →
          ∃ c, (id, c) ∈ counter ∧ threshold ≤ c) := by
  refine ⟨?_, ?_, ?_⟩
  · intro counter threshold_bp scaled p
    simp [lib_search_kept, lib_search_threshold, List.mem_filter]
  · intro threshold_bp size scaled
    rfl
  · intro threshold counter id hid
    simp only [main_search_matches, List.mem_map] at hid
    obtain ⟨p, hp, rfl⟩ := hid
    have hmem : p ∈ counter := (List.takeWhile_sublist _).mem hp
    have hpred := List.mem_takeWhile_imp hp
    simp only [decide_eq_true_eq] at hpred
    exact ⟨p.2, by simpa using hmem, hpred⟩

/-- C1, witness for the amended theorem: dataset 7 with count 60 passes
lib.rs's filter at `threshold_bp = 50000`, `scaled = 1000`. -/
theorem c1_search_threshold_amended_witness :
    (7, 60) ∈ lib_search_kept [(7, 60)] (lib_search_threshold 50000 1000) :=
  (c1_search_threshold_amended.1 [(7, 60)] 50000 1000 (7, 60)).mpr (by decide)

/-! ## Sketches

`KmerMinHash` is the value type consumed from the external sourmash crate
(spec section 1: a black box with accessors `ksize`, `scaled`, `seed`,
`max_hash`, `hash_function` and the hash list).  `hash_function` is the
numeric code of the `HashFunctions` enum. -/

/-- The sketch value type, with the accessors the repository uses. -/
structure KmerMinHash where
  ksize : Nat
  hash_function : Nat
  seed : Nat
  max_hash : Nat
  mins : List Nat
deriving DecidableEq

/-- The sourmash error values raised by `check_compatible_downsample`. -/
inductive SourmashError where
  | MismatchKSizes : SourmashError
  | MismatchDNAProt : SourmashError
  | MismatchScaled : SourmashError
  | MismatchSeed : SourmashError
deriving DecidableEq

/-- `check_compatible_downsample` from src/lib.rs lines 105-134: the four
checks in source order (ksize, hash function, max_hash, seed). -/
def check_compatible_downsample (me other : KmerMinHash) :
    Except SourmashError Unit :=
  if me.ksize ≠ other.ksize then .error .MismatchKSizes
  else if me.hash_function ≠ other.hash_function then .error .MismatchDNAProt
  else if me.max_hash < other.max_hash then .error .MismatchScaled
  else if me.seed ≠ other.seed then .error .MismatchSeed
  else .ok ()

/-- Whether `check_compatible_downsample` accepts (same ksize, hash
function and seed, and `me.max_hash ≥ other.max_hash`). -/
def compat_ok (mh template : KmerMinHash) : Bool :=
  match check_compatible_downsample mh template with
  | .ok _ => true
  | .error _ => false

/-- The parameter-equality predicate of sketch selection: ksize, hash
function, seed and max_hash (equivalently scaled) all equal. -/
def params_match (mh template : KmerMinHash) : Bool :=
  mh.ksize == template.ksize && mh.hash_function == template.hash_function
    && mh.seed == template.seed && mh.max_hash == template.max_hash

/-- Modelled from the spec: `Signature::select_sketch` of the external
sourmash crate (spec section 4.7 step 1 and the section 6 compatibility
contract) returns the first sketch whose parameters match the template's
exactly. -/
def select_sketch (sketches : List KmerMinHash) (template : KmerMinHash) :
    Option KmerMinHash :=
  sketches.find? (fun mh => params_match mh template)

/-- Modelled from the spec (glossary): `max_hash_for_scaled(scaled) =
2 ^ 64 / scaled` for nonzero scaled. -/
def max_hash_for_scaled (scaled : Nat) : Nat :=
  if scaled = 0 then 0 else 2 ^ 64 / scaled

/-- Modelled from the spec: `KmerMinHash::scaled()` of the external
sourmash crate recovers the scaled value from `max_hash`. -/
def KmerMinHash.scaled (mh : KmerMinHash) : Nat :=
  if mh.max_hash = 0 then 0 else 2 ^ 64 / mh.max_hash

/-- Modelled from the spec (glossary): downsampling to a smaller
`max_hash` retains the hashes at or below the new bound. -/
def KmerMinHash.downsample_max_hash (mh : KmerMinHash) (max_hash : Nat) :
    KmerMinHash :=
  { mh with max_hash := max_hash,
            mins := mh.mins.filter (fun h => decide (h ≤ max_hash)) }

/-- The fold step of `prepare_query`'s loop and of `search`'s loop over
query signatures: a later `Some` overwrites the accumulator, a `None`
keeps it. -/
def keep_last (f : α → Option β) (l : List α) : Option β :=
  l.foldl (fun acc x => match f x with | some y => some y | none => acc) none

/-- `prepare_query` from src/lib.rs lines 136-155: use `select_sketch`'s
result when it is a MinHash sketch; otherwise scan all sketches and keep
the (last) downsample-compatible one, downsampled to the template's
`max_hash`. -/
def prepare_query (search_sig : List KmerMinHash) (template : KmerMinHash) :
    Option KmerMinHash :=
  match select_sketch search_sig template with
  | some mh => some mh
  | none =>
    keep_last (fun ref_mh =>
      match check_compatible_downsample ref_mh template with
      | .ok _ => some (ref_mh.downsample_max_hash
          (max_hash_for_scaled template.scaled))
      | .error _ => none) search_sig

/-- The loop of `search` over the signatures of the query file
(src/lib.rs lines 302-308): the last signature that prepares successfully
provides the query. -/
def search_query_selection (sigs : List (List KmerMinHash))
    (template : KmerMinHash) : Option KmerMinHash :=
  keep_last (fun sig => prepare_query sig template) sigs

theorem keep_last_eq_getLast (f : α → Option β) (l : List α) :
    keep_last f l = (l.filterMap f).getLast? := by
  induction l using List.reverseRecOn with
  | nil => rfl
  | append_singleton l x ih =>
    rw [keep_last, List.foldl_append, List.filterMap_append]
    rw [keep_last] at ih
    cases hfx : f x with
    | none => simp [hfx, ih]
    | some y => simp [hfx]

theorem keep_last_isSome (f : α → Option β) (l : List α) :
    (keep_last f l).isSome = true ↔ ∃ x ∈ l, (f x).isSome = true := by
  rw [keep_last_eq_getLast, List.getLast?_isSome]
  constructor
  · intro hne
    obtain ⟨y, hy⟩ := List.exists_mem_of_ne_nil _ hne
    obtain ⟨x, hx, hfx⟩ := List.mem_filterMap.mp hy
    exact ⟨x, hx, by simp [hfx]⟩
  · rintro ⟨x, hx, hfx⟩ hnil
    obtain ⟨y, hy⟩ := Option.isSome_iff_exists.mp hfx
    have : y ∈ l.filterMap f := List.mem_filterMap.mpr ⟨x, hx, hy⟩
    simp [hnil] at this

deriving instance DecidableEq for Except

theorem filterMap_if_eq_map_filter (g : α → β) (p : α → Bool) (l : List α) :
    l.filterMap (fun x => if p x then some (g x) else none)
      = (l.filter p).map g := by
  induction l with
  | nil => rfl
  | cons x xs ih =>
    by_cases h : p x = true <;> simp [h, ih]

/-- C4, counterexample.  On a signature whose single sketch has the wrong
ksize, `prepare_query` returns `None`: the `MismatchKSizes` error that
`check_compatible_downsample` computes internally is discarded (`is_ok()`),
so no `Mismatch*` error is surfaced to the caller — the lib.rs `search`
then aborts through `expect("Couldn't find a compatible MinHash")`. -/
theorem c4_prepare_query_counterexample :
    prepare_query [KmerMinHash.mk 21 0 42 100 [5]] (KmerMinHash.mk 31 0 42 100 []) = none
    ∧ check_compatible_downsample (KmerMinHash.mk 21 0 42 100 [5])
        (KmerMinHash.mk 31 0 42 100 [])
      = Except.error SourmashError.MismatchKSizes := by
  decide

/-- C4, amended.  `prepare_query` returns `Some` exactly when some sketch
matches the template's parameters exactly or is downsample-compatible
(same ksize, hash function, seed, and `max_hash` at least the template's);
otherwise it returns `None` — an `Option`, not a `Mismatch*` error. -/
theorem c4_prepare_query_amended :
    ∀ (search_sig : List KmerMinHash) (template : KmerMinHash),
      (prepare_query search_sig template).isSome = true
        ↔ (∃ mh ∈ search_sig, params_match mh template = true)
          ∨ (∃ mh ∈ search_sig, compat_ok mh template = true) := by
  intro sig t
  cases hsel : select_sketch sig t with
  | some mh =>
    simp only [prepare_query, hsel, Option.isSome_some, true_iff]
    have hf := hsel
    simp only [select_sketch] at hf
    have hpm : params_match mh t = true := by simpa using List.find?_some hf
    exact Or.inl ⟨mh, List.mem_of_find?_eq_some hf, hpm⟩
  | none =>
    simp only [prepare_query, hsel]
    have hf := hsel
    simp only [select_sketch] at hf
    rw [keep_last_isSome]
    constructor
    · rintro ⟨mh, hmem, hs⟩
      refine Or.inr ⟨mh, hmem, ?_⟩
      unfold compat_ok
      cases hc : check_compatible_downsample mh t with
      | ok u => rfl
      | error e => rw [hc] at hs; simp at hs
    · rintro (⟨mh, hmem, hp⟩ | ⟨mh, hmem, hc⟩)
      · exact absurd hp (by simpa using List.find?_eq_none.mp hf mh hmem)
      · refine ⟨mh, hmem, ?_⟩
        unfold compat_ok at hc
        cases hcc : check_compatible_downsample mh t with
        | ok u => simp [hcc]
        | error e => rw [hcc] at hc; simp at hc

theorem getLast?_map_eq (g : α → β) (l : List α) :
    (l.map g).getLast? = l.getLast?.map g := by
  induction l using List.reverseRecOn with
  | nil => rfl
  | append_singleton l x ih => simp

/-- C10, counterexample.  The query signature holds an exact template
match first (max_hash 100) and a later, merely downsample-compatible
sketch (max_hash 1000).  Both qualify, and the last qualifying sketch in
iteration order is the second one; but `select_sketch` finds the exact
match, so the `if let` branch of `prepare_query` returns it and the
downsample loop never runs: the result is not the last qualifying sketch
downsampled. -/
theorem c10_prepare_query_last_counterexample :
    prepare_query
        [KmerMinHash.mk 31 0 42 100 [5], KmerMinHash.mk 31 0 42 1000 [5, 7, 500]]
        (KmerMinHash.mk 31 0 42 100 [])
      = some (KmerMinHash.mk 31 0 42 100 [5])
    ∧ compat_ok (KmerMinHash.mk 31 0 42 1000 [5, 7, 500])
        (KmerMinHash.mk 31 0 42 100 []) = true
    ∧ (KmerMinHash.mk 31 0 42 1000 [5, 7, 500]).downsample_max_hash
        (max_hash_for_scaled (KmerMinHash.mk 31 0 42 100 []).scaled)
      = KmerMinHash.mk 31 0 42 100 [5, 7]
    ∧ ¬ prepare_query
        [KmerMinHash.mk 31 0 42 100 [5], KmerMinHash.mk 31 0 42 1000 [5, 7, 500]]
        (KmerMinHash.mk 31 0 42 100 [])
      = some ((KmerMinHash.mk 31 0 42 1000 [5, 7, 500]).downsample_max_hash
          (max_hash_for_scaled (KmerMinHash.mk 31 0 42 100 []).scaled)) := by
  decide

/-- C10, amended.  If `select_sketch` finds a sketch whose parameters
equal the template's, `prepare_query` returns that sketch directly; only
when it finds none does the loop run, and then the *last*
downsample-compatible sketch in iteration order wins (downsampled to the
template's max_hash).  The `search` loop over the query file's signatures
does keep the last signature that prepares successfully. -/
theorem c10_last_qualifying_amended :
    (∀ (sig : List KmerMinHash) (t mh : KmerMinHash),
      select_sketch sig t = some mh → prepare_query sig t = some mh)
    ∧ (∀ (sig : List KmerMinHash) (t : KmerMinHash),
        select_sketch sig t = none →
          prepare_query sig t
            = ((sig.filter (fun mh => compat_ok mh t)).getLast?).map
                (fun mh => mh.downsample_max_hash (max_hash_for_scaled t.scaled)))
    ∧ (∀ (sigs : List (List KmerMinHash)) (t : KmerMinHash),
        search_query_selection sigs t
          = (sigs.filterMap (fun sig => prepare_query sig t)).getLast?) := by
  refine ⟨?_, ?_, ?_⟩
  · intro sig t mh hsel
    simp [prepare_query, hsel]
  · intro sig t hsel
    simp only [prepare_query, hsel]
    rw [keep_last_eq_getLast]
    have hfn : (fun ref_mh => match check_compatible_downsample ref_mh t with
        | .ok _ => some (ref_mh.downsample_max_hash (max_hash_for_scaled t.scaled))
        | .error _ => none)
        = (fun ref_mh => if compat_ok ref_mh t
            then some (ref_mh.downsample_max_hash (max_hash_for_scaled t.scaled))
            else none) := by
      funext ref_mh
      unfold compat_ok
      cases check_compatible_downsample ref_mh t <;> simp
    rw [hfn, filterMap_if_eq_map_filter, getLast?_map_eq]
  · intro sigs t
    exact keep_last_eq_getLast _ _

/-- C10, witness for the amended theorem: with no exact match present, the
single downsample-compatible sketch is returned downsampled. -/
theorem c10_last_qualifying_amended_witness :
    prepare_query [KmerMinHash.mk 31 0 42 1000 [5, 7, 500]]
        (KmerMinHash.mk 31 0 42 100 [])
      = (([KmerMinHash.mk 31 0 42 1000 [5, 7, 500]].filter
            (fun mh => compat_ok mh (KmerMinHash.mk 31 0 42 100 []))).getLast?).map
          (fun mh => mh.downsample_max_hash
            (max_hash_for_scaled (KmerMinHash.mk 31 0 42 100 []).scaled)) :=
  c10_last_qualifying_amended.2.1 _ _ (by decide)

/-! ## src/main.rs — `Colors` and the color table

The colors column is modelled as an association list from `Color` (a
`u64`) to the stored member set; `db.get` is `lookupColor`.  The external
`twox_hash` 128-bit digest truncated to 64 bits is an arbitrary function
parameter `hash : List Nat → Nat` applied to the sorted member list, as
`Colors::compute_color` does. -/

/-- The colors table: `Color` keys mapped to stored member sets. -/
def ColorTable : Type := List (Nat × Finset Nat)

/-- `db.get(&color_bytes)` against the colors table. -/
def lookupColor (db : ColorTable) (color : Nat) : Option (Finset Nat) :=
  match (db : List (Nat × Finset Nat)).find? (fun e => e.1 == color) with
  | some e => some e.2
  | none => none

/-- `Colors::compute_color` from src/main.rs lines 185-193: sort the
member ids ascending and apply the (external) 128-bit digest truncated to
64 bits, here the parameter `hash`. -/
def Colors.compute_color (hash : List Nat → Nat) (idxs : Finset Nat) : Nat :=
  hash (idxs.sort (· ≤ ·))

/-- `Colors::update` from src/main.rs lines 141-183.  Returns the updated
table and the resulting color.  The two insert sites of the source are
commented out behind `FIXME db.entry(new_color).or_insert_with(|| idxs)`,
so the table is returned unchanged on every path; the `None` arm of the
inner lookup is the source's `unimplemented!` panic. -/
def Colors.update (hash : List Nat → Nat) (db : ColorTable)
    (current_color : Option Nat) (new_idxs : List Nat) :
    Except String (ColorTable × Nat) :=
  match current_color with
  | some color =>
    match lookupColor db color with
    | some idxs =>
      if ((new_idxs.filter (fun i => decide (i ∉ idxs))).isEmpty) then
        .ok (db, color)
      else
        .ok (db, Colors.compute_color hash
          (idxs ∪ (new_idxs.filter (fun i => decide (i ∉ idxs))).toFinset))
    | none => .error "current_color must exist in order to be updated"
  | none => .ok (db, Colors.compute_color hash new_idxs.toFinset)

/-- C2, code bug.  Widening the color of a hash from the set `{0}` (stored
under color 7) by the new dataset 1 computes the new color for `{0, 1}`
and returns it, but the colors table is returned unchanged — the insert is
a commented-out FIXME in `Colors::update` — so no entry maps any color to
`{0, 1}` and the returned color is dangling, whatever the digest function
is.  The claimed invariant (every color referenced from `hashes` is
present in `colors`) is violated by the very operation meant to maintain
it. -/
theorem c2_colors_update_missing_insert :
    ∀ hash : List Nat → Nat,
      Colors.update hash [(7, {0})] (some 7) [1]
        = Except.ok ([(7, {0})], Colors.compute_color hash ({0, 1} : Finset Nat))
      ∧ ∀ c : Nat, lookupColor [(7, {0})] c = none
          ∨ lookupColor [(7, {0})] c = some {0} := by
  intro hash
  constructor
  · have hu : ({0} : Finset Nat)
        ∪ ([1].filter (fun i => decide (i ∉ ({0} : Finset Nat)))).toFinset
        = ({0, 1} : Finset Nat) := by decide
    calc Colors.update hash [(7, {0})] (some 7) [1]
        = Except.ok (([(7, {0})] : ColorTable), Colors.compute_color hash
            (({0} : Finset Nat)
              ∪ ([1].filter (fun i => decide (i ∉ ({0} : Finset Nat)))).toFinset)) := rfl
      _ = Except.ok (([(7, {0})] : ColorTable),
            Colors.compute_color hash ({0, 1} : Finset Nat)) := by rw [hu]
  · intro c
    by_cases hc : c = 7
    · subst hc
      right
      rfl
    · left
      have hbeq : (7 == c) = false := by
        simp [Ne.symm hc]
      simp [lookupColor, List.find?, hbeq]

/-! ## Indexing: signature blobs and postings -/

/-- The `SignatureData` enum of src/lib.rs lines 67-72; `Internal` holds
the signature reduced to the selected sketch. -/
inductive SignatureData where
  | Empty : SignatureData
  | Internal (sig : KmerMinHash) : SignatureData
  | External (path : String) : SignatureData
deriving DecidableEq

/-- The blob choice of `sig_save_to_db` (src/lib.rs lines 505-534):
`Empty` when the selected sketch is empty or `size < threshold as u64`
(the `f64` threshold truncated to an integer, passed here already
truncated), otherwise `External(filename)` or `Internal` per
`save_paths`. -/
def sig_save_to_db (search_mh : KmerMinHash) (size threshold : Nat)
    (save_paths : Bool) (filename : String) : SignatureData :=
  if search_mh.mins.isEmpty || decide (size < threshold) then .Empty
  else if save_paths then .External filename
  else .Internal search_mh

/-- The merge-puts of `map_hashes_colors` (src/main.rs lines 51-88): when
`!matched.is_empty() || size > threshold as u64` holds, one posting
`(hash, dataset_id)` (payload `Datasets::new([dataset_id])`) is issued
per hash of the selected sketch; otherwise none. -/
def map_hashes_colors (dataset_id : Nat) (matched : List Nat)
    (threshold : Nat) : List (Nat × Nat) :=
  if !matched.isEmpty || decide (matched.length > threshold) then
    matched.map (fun hash => (hash, dataset_id))
  else []

/-- C3, code bug.  A nonempty sketch of size 1 against build threshold 5:
`sig_save_to_db` records `SignatureData::Empty` for the dataset (size
below threshold), yet `map_hashes_colors` issues a merge-put for its hash
because the condition `!matched.is_empty() || size > threshold`
short-circuits to true on any nonempty sketch — postings are issued for a
dataset whose stored blob says it was discarded, contradicting the
claimed `size ≥ threshold` gating. -/
theorem c3_undersized_sketch_posting_bug :
    sig_save_to_db (KmerMinHash.mk 31 0 42 (2 ^ 61) [97]) 1 5 false "a.sig"
      = SignatureData.Empty
    ∧ map_hashes_colors 0 [97] 5 = [(97, 0)]
    ∧ (1 : Nat) < 5 := by
  decide
